import Mathlib

/-!
Verification of the navecd per-project reconciliation engine against its
specification. The Go sources are shallowly embedded: pure control flow is
translated into Lean functions, filesystem and scheduler state is passed
explicitly, and machine-level or external-library behaviour (JSON decoding,
semver parsing, Kubernetes and network I/O) is abstracted into explicit
function parameters. Go byte strings are modelled as lists of characters;
fallible Go functions return sum types that distinguish ordinary error
returns from runtime panics.
-/

/-- Model of Go `strings.Split` for a one-character separator, on character
lists: `splitSegs sep s` is the list of separator-free segments, one more
than the number of separator occurrences (so the empty input yields one
empty segment, exactly as `strings.Split("", sep)` returns `[""]`). -/
def splitSegs (sep : Char) : List Char → List (List Char)
  | [] => [[]]
  | c :: cs =>
    let r := splitSegs sep cs
    if c = sep then [] :: r
    else
      match r with
      | [] => [[c]]
      | seg :: rest => (c :: seg) :: rest

/-- Model of Go `strings.Split` on strings, for a one-character separator. -/
def goSplit (sep : Char) (s : String) : List String :=
  (splitSegs sep s.toList).map (fun l => ⟨l⟩)

/-- Model of Go `strings.HasPrefix` on character lists. -/
def isPre : List Char → List Char → Bool
  | [], _ => true
  | _ :: _, [] => false
  | a :: as, b :: bs => a == b && isPre as bs

/-- Model of Go `strings.HasPrefix`. -/
def goHasPre (s pre : String) : Bool := isPre pre.toList s.toList

namespace Inventory

/-- Byte content of an inventory file, modelled as a list of characters.
The copy loop in `StoreItem` operates on newline-delimited chunks exactly as
`bufio.Reader.ReadString('\n')` does. -/
abbrev Bytes := List Char

/-- Model of the copy loop in `Instance.StoreItem` (pkg/inventory):
`bufio.ReadString('\n')` reads a chunk up to and including a newline and the
loop writes it; when the reader reaches end of input before a newline it
returns `io.EOF` and the loop breaks without writing the pending chunk.
`copyLoop pending s` processes the remaining input `s`, with `pending` the
chunk read so far in the current iteration. -/
def copyLoop (pending : Bytes) : Bytes → Bytes
  | [] => []
  | c :: cs =>
    if c = '\n' then pending ++ [c] ++ copyLoop [] cs
    else copyLoop (pending ++ [c]) cs

/-- The bytes that `StoreItem` actually persists when handed content `p`. -/
def copyLines (content : Bytes) : Bytes := copyLoop [] content

/-- Mirror of `k8s.io/apimachinery` `v1.TypeMeta` as used by `ManifestItem`. -/
structure TypeMeta where
  kind : String
  apiVersion : String
  deriving DecidableEq, Repr

/-- Mirror of `inventory.HelmReleaseItem`. -/
structure HelmReleaseItem where
  name : String
  nspace : String
  id : String
  deriving DecidableEq, Repr

/-- Mirror of `inventory.ManifestItem`. -/
structure ManifestItem where
  typeMeta : TypeMeta
  name : String
  nspace : String
  id : String
  deriving DecidableEq, Repr

/-- The `inventory.Item` interface: a tagged sum of its two implementations. -/
inductive Item where
  | helmRelease (h : HelmReleaseItem)
  | manifest (m : ManifestItem)
  deriving DecidableEq, Repr

def Item.getName : Item → String
  | .helmRelease h => h.name
  | .manifest m => m.name

def Item.getNamespace : Item → String
  | .helmRelease h => h.nspace
  | .manifest m => m.nspace

def Item.getID : Item → String
  | .helmRelease h => h.id
  | .manifest m => m.id

/-- Mirror of `inventory.itemNs`: the bucket directory is the item's
namespace, or its name when the namespace is empty. -/
def itemNs (item : Item) : String :=
  if item.getNamespace = "" then item.getName else item.getNamespace

/-- The slice of the filesystem owned by one inventory `Instance` root:
the set of bucket directories that exist beneath the root and the files
`(bucket, basename, content)` inside them. -/
structure FileSys where
  dirs : List String
  files : List (String × String × Bytes)
  deriving DecidableEq, Repr

def FileSys.empty : FileSys := ⟨[], []⟩

/-- Model of `os.MkdirAll` for a bucket: creating an existing directory is a
no-op. -/
def insertDir (d : String) (ds : List String) : List String :=
  if d ∈ ds then ds else ds ++ [d]

/-- Model of `os.Create`: truncate an existing file or create a fresh one. -/
def setFile (dir nm : String) (content : Bytes) (files : List (String × String × Bytes)) :
    List (String × String × Bytes) :=
  if files.any (fun e => e.1 == dir && e.2.1 == nm) then
    files.map (fun e => if e.1 == dir && e.2.1 == nm then (dir, nm, content) else e)
  else
    files ++ [(dir, nm, content)]

def lookupFile (dir nm : String) (files : List (String × String × Bytes)) : Option Bytes :=
  (files.find? (fun e => e.1 == dir && e.2.1 == nm)).map (fun e => e.2.2)

/-- The bytes an optional content reader leaves in the created file: nothing
for a nil reader, the line-copied bytes otherwise. -/
def storedBytes : Option Bytes → Bytes
  | none => []
  | some p => copyLines p

/-- Model of `Instance.StoreItem`: create the bucket directory (0700), create
the file named by the item id, and copy the optional content through the
buffered line-by-line loop (`copyLines`). A `none` reader leaves the file
empty. -/
def storeItem (fs : FileSys) (item : Item) (contentReader : Option Bytes) : FileSys :=
  let dir := itemNs item
  { dirs := insertDir dir fs.dirs
    files := setFile dir item.getID (storedBytes contentReader) fs.files }

/-- Model of `Instance.GetItem`: open the item file for reading; a missing
file is a `PathError`, modelled as `none`. -/
def getItem (fs : FileSys) (item : Item) : Option Bytes :=
  lookupFile (itemNs item) item.getID fs.files

/-- Errors produced by `Instance.DeleteItem`: `pathError` models an
`os.Open`/`os.Remove` failure on a missing path, `eofError` models the
function returning the raw `io.EOF` obtained from `Readdirnames`. -/
inductive DeleteError where
  | pathError
  | eofError
  deriving DecidableEq, Repr

/-- Model of `Instance.DeleteItem` (pkg/inventory): open the bucket directory
(`PathError` when absent), probe it with `Readdirnames(1)`; on `io.EOF`
(directory already empty) remove the directory and then return the `io.EOF`
error; otherwise remove the item file. The emptiness probe happens before
the file removal, never after it. -/
def deleteItem (fs : FileSys) (item : Item) : FileSys × Option DeleteError :=
  let dir := itemNs item
  if dir ∈ fs.dirs then
    if fs.files.any (fun e => e.1 == dir) then
      if fs.files.any (fun e => e.1 == dir && e.2.1 == item.getID) then
        ({ fs with files := fs.files.filter (fun e => !(e.1 == dir && e.2.1 == item.getID)) }, none)
      else
        (fs, some .pathError)
    else
      ({ fs with dirs := fs.dirs.erase dir }, some .eofError)
  else
    (fs, some .pathError)

/-- Errors surfaced by `Instance.Load`. `decodeError` stands for a JSON
decoding failure of a manifest payload. -/
inductive LoadError where
  | wrongInventoryKey
  | manifestFieldNotFound
  | decodeError
  deriving DecidableEq, Repr

/-- Outcome of a Go function that can also crash: `panicked` models a runtime
panic such as an out-of-range slice index. -/
inductive LoadResult (α : Type) where
  | ok (a : α)
  | err (e : LoadError)
  | panicked
  deriving DecidableEq, Repr

/-- Whether a load outcome is a successful one. -/
def LoadResult.isOk {α : Type} : LoadResult α → Bool
  | .ok _ => true
  | _ => false

/-- Model of the per-file body of `Instance.Load`'s `WalkDir` closure. The
basename is split on `_`; Go reads `identifier[0]` and `identifier[1]`
unconditionally, so a basename that splits into fewer than two segments
panics with an index-out-of-range. Three segments must end in `HelmRelease`;
anything other than four segments otherwise is `ErrWrongInventoryKey`; four
segments decode the payload as JSON, requiring the string fields `kind` and
`apiVersion`. The external `encoding/json` decoder is abstracted as `decode`,
returning the optional `kind` and `apiVersion` fields of the decoded object,
or `none` when the payload is not valid JSON. -/
def parseItem (decode : Bytes → Option (Option String × Option String))
    (key : String) (content : Bytes) : LoadResult Item :=
  let identifier := goSplit '_' key
  if identifier.length < 2 then
    .panicked
  else
    let name := identifier.getD 0 ""
    let nspace := identifier.getD 1 ""
    if identifier.length = 3 then
      if identifier.getD 2 "" ≠ "HelmRelease" then .err .wrongInventoryKey
      else .ok (.helmRelease ⟨name, nspace, key⟩)
    else if identifier.length ≠ 4 then
      .err .wrongInventoryKey
    else
      match decode content with
      | none => .err .decodeError
      | some (kindField, apiVersionField) =>
        match kindField with
        | none => .err .manifestFieldNotFound
        | some kind =>
          match apiVersionField with
          | none => .err .manifestFieldNotFound
          | some apiVersion => .ok (.manifest ⟨⟨kind, apiVersion⟩, name, nspace, key⟩)

/-- The walk over all files below the instance root: the first parse failure
aborts the walk, otherwise every file contributes a keyed item. The key is
the file basename, exactly as `items[key] = ...` does in the source. -/
def loadItems (decode : Bytes → Option (Option String × Option String)) :
    List (String × String × Bytes) → LoadResult (List (String × Item))
  | [] => .ok []
  | (_, nm, content) :: rest =>
    match parseItem decode nm content with
    | .panicked => .panicked
    | .err e => .err e
    | .ok item =>
      match loadItems decode rest with
      | .panicked => .panicked
      | .err e => .err e
      | .ok items => .ok ((nm, item) :: items)

/-- Model of `Instance.Load`: walk every file under the root and collect the
storage map. -/
def load (decode : Bytes → Option (Option String × Option String)) (fs : FileSys) :
    LoadResult (List (String × Item)) :=
  loadItems decode fs.files

/-- Folding a sequence of stores over a filesystem, used to state the
round-trip law for `Load` after a set of `StoreItem` calls. -/
def storeAll (fs : FileSys) (stores : List (Item × Option Bytes)) : FileSys :=
  stores.foldl (fun acc s => storeItem acc s.1 s.2) fs

end Inventory

namespace Oci

/-- Go constant `types.OCIManifestSchema1` from go-containerregistry. -/
def OCIManifestSchema1 : String := "application/vnd.oci.image.manifest.v1+json"

/-- Go constant `oci.ContentLayerMediaType`. -/
def ContentLayerMediaType : String := "application/vnd.navecd.content.v1.tar+gzip"

/-- Go constant `oci.ConfigMediaType`. -/
def ConfigMediaType : String := "application/vnd.navecd.config.v1+json"

/-- The remote image a `LoadImage` call observes, after the external
go-containerregistry transport: its manifest and config media types, its
digest string, the media type of its single content layer, whether the
layer download (network read in `downloadImage`) succeeds, whether the
tar+gzip extraction (`tgz.Read` in `unpack`) succeeds, and the project tree
the layer unpacks to, abstracted as a string. -/
structure Image where
  manifestMediaType : String
  configMediaType : String
  digest : String
  layerMediaType : String
  pullOk : Bool
  unpackOk : Bool
  content : String
  deriving DecidableEq, Repr

/-- Error outcomes of `ProjectClient.LoadImage`: a media-type rejection, a
`RecoverableError` carrying the backup path, and an `UnrecoverableError`
from a failed unpack. -/
inductive LoadImageError where
  | wrongMediaType
  | recoverable (backupPath : String)
  | unrecoverable
  deriving DecidableEq, Repr

/-- The cache and target state a sequence of `LoadImage` calls threads
through: the digests that currently have a `<cacheDir>/completion/<digest>.complete`
marker, the target directories with the content last unpacked into them
(empty string right after `MkdirAll` creates a fresh one), the backup
directories that exist, and a ghost log of `(digest, targetDir)` recording
every successful unpack event (it instruments the model and influences no
branch). -/
structure LoadState where
  completion : List String
  targets : List (String × String)
  backups : List String
  unpacks : List (String × String)
  deriving DecidableEq, Repr

def LoadState.empty : LoadState := ⟨[], [], [], []⟩

/-- Model of `os.MkdirAll targetDir`: create the directory empty when
missing, leave it untouched otherwise. -/
def ensureDir (dir : String) (targets : List (String × String)) : List (String × String) :=
  if targets.any (fun e => e.1 == dir) then targets else targets ++ [(dir, "")]

/-- Overwrite the content associated with a directory. -/
def setDirContent (dir content : String) (targets : List (String × String)) :
    List (String × String) :=
  if targets.any (fun e => e.1 == dir) then
    targets.map (fun e => if e.1 == dir then (dir, content) else e)
  else
    targets ++ [(dir, content)]

def insertName (d : String) (ds : List String) : List String :=
  if d ∈ ds then ds else ds ++ [d]

/-- Model of `ProjectClient.LoadImage` (pkg/oci/client.go). The call checks
the manifest and config media types, computes the digest and returns early
when the completion marker is present; otherwise `prepareDirs` runs
`os.RemoveAll` on the whole completion directory (erasing every marker)
before recreating it and the target directory, a backup directory
`<targetDir>-bkp` is created, the content layer is downloaded (failure is
`RecoverableError` with the backup path), unpacked into the target
(failure is `UnrecoverableError`), and finally the completion marker of
this digest is created. The per-digest scratch directory is removed by a
defer and is not modelled. A failed unpack leaves partially extracted
contents; the model leaves the target unchanged in that case, which no
claim observes. -/
def loadImage (s : LoadState) (img : Image) (targetDir : String) :
    Except LoadImageError String × LoadState :=
  if img.manifestMediaType ≠ OCIManifestSchema1 then
    (.error .wrongMediaType, s)
  else if img.configMediaType ≠ ConfigMediaType then
    (.error .wrongMediaType, s)
  else
    let digest := img.digest
    if digest ∈ s.completion then
      (.ok digest, s)
    else
      let s1 : LoadState := { s with completion := [], targets := ensureDir targetDir s.targets }
      let bkp := targetDir ++ "-bkp"
      let s2 : LoadState := { s1 with backups := insertName bkp s1.backups }
      if img.layerMediaType ≠ ContentLayerMediaType ∨ img.pullOk = false then
        (.error (.recoverable bkp), s2)
      else if img.unpackOk = false then
        (.error .unrecoverable, s2)
      else
        let s3 : LoadState := { s2 with
          targets := setDirContent targetDir img.content s2.targets
          unpacks := s2.unpacks ++ [(digest, targetDir)] }
        (.ok digest, { s3 with completion := s3.completion ++ [digest] })

/-- Run a sequence of `LoadImage` calls, keeping only the final state. -/
def loadMany (s : LoadState) : List (Image × String) → LoadState
  | [] => s
  | (img, t) :: rest => loadMany (loadImage s img t).2 rest

end Oci

namespace Comp

/-- The `component.Instance` interface as the reconciler consumes it: a
stable id and the ids of declared dependencies. The `Manifest` and
`HelmRelease` variants differ only in what `reconcile` does per component
(server-side apply vs. chart reconciliation), which the model abstracts
into the apply environment below. -/
structure Instance where
  id : String
  dependencies : List String
  deriving DecidableEq, Repr

/-- The outcome of one `reconciler.reconcile` call (server-side apply plus
inventory store, or chart reconciliation): `none` is success, `some msg`
the error for that component id. The cluster is external state, so the
outcome is an oracle keyed by component id. -/
abbrev ApplyEnv := String → Option String

/-- Mirror of `component.InstanceLayer` as consumed by `reconcileLayer`. -/
structure InstanceLayer where
  components : List Instance
  deriving DecidableEq, Repr

/-- The skip test inside `reconcileLayer`: some declared dependency belongs
to the previous layer's error set. -/
def shouldSkip (prevErr : List String) (inst : Instance) : Bool :=
  inst.dependencies.any (fun dep => prevErr.contains dep)

/-- One goroutine body of `reconcileLayer`, sequentialized in slice order
(the errgroup runs them concurrently; each either skips, succeeds, or sends
its id onto `errChan` and returns its error). The accumulator carries the
collected error-component ids, the first error returned by the group
(`errgroup.Wait` keeps the first non-nil one), and the log of component ids
an apply call was issued for. -/
def layerStep (env : ApplyEnv) (checkSkip : Bool) (prevErr : List String)
    (acc : List String × Option String × List String) (inst : Instance) :
    List String × Option String × List String :=
  if checkSkip && shouldSkip prevErr inst then
    acc
  else
    match env inst.id with
    | none => (acc.1, acc.2.1, acc.2.2 ++ [inst.id])
    | some msg => (acc.1 ++ [inst.id], acc.2.1 <|> some msg, acc.2.2 ++ [inst.id])

/-- Model of `Reconciler.reconcileLayer`: when the previous layer produced
no errors the loop without the dependency check runs, otherwise each
component is first checked against the previous layer's error set and
skipped (without being recorded as an error) when a dependency is in it.
Returns the layer's error-component set, the first error, and the ghost log
of issued applies. -/
def reconcileLayer (env : ApplyEnv) (layer : InstanceLayer) (prevErr : List String) :
    List String × Option String × List String :=
  if prevErr.isEmpty then
    layer.components.foldl (layerStep env false prevErr) ([], none, [])
  else
    layer.components.foldl (layerStep env true prevErr) ([], none, [])

/-- Modelled from the spec: the `component.Layer` function is not under src
(only its test is). Spec section 4.1: layering assigns each node
`layer = 1 + max(layer(dep))`, `0` for no dependencies, over the
topologically sorted stream; the assignment is folded left over the sorted
input so each dependency is assigned before its dependents. -/
def layerAssign : List Instance → List (String × Nat) → List (String × Nat)
  | [], acc => acc
  | inst :: rest, acc =>
    let n :=
      if inst.dependencies.isEmpty then 0
      else
        (inst.dependencies.map (fun d =>
          ((acc.find? (fun e => e.1 == d)).map (fun e => e.2)).getD 0)).foldl max 0 + 1
    layerAssign rest (acc ++ [(inst.id, n)])

/-- Modelled from the spec: `component.Layer` partitions the sorted stream
into layers by the longest-ancestor-chain index. -/
def Layer (instances : List Instance) : List InstanceLayer :=
  let assign := layerAssign instances []
  let layerOf := fun (inst : Instance) =>
    ((assign.find? (fun e => e.1 == inst.id)).map (fun e => e.2)).getD 0
  let maxLayer := (assign.map (fun e => e.2)).foldl max 0
  (List.range (maxLayer + 1)).map (fun i =>
    ⟨instances.filter (fun inst => layerOf inst == i)⟩)

/-- One iteration of the layer loop in `Reconciler.Reconcile`: the
accumulator carries the first error so far, the apply log, and the previous
layer's error-component set; the layer result replaces the error set and
contributes to the error and log. -/
def reconcileStep (env : ApplyEnv) (acc : Option String × List String × List String)
    (layer : InstanceLayer) : Option String × List String × List String :=
  let r := reconcileLayer env layer acc.2.2
  (acc.1 <|> r.2.1, acc.2.1 ++ r.2.2, r.1)

/-- Model of `Reconciler.Reconcile`: partition the sorted stream into layers
and fold over them, remembering the first non-nil layer error and feeding
each layer's error-component set to the next. The second component is the
ghost log of all issued applies in order. -/
def Reconcile (env : ApplyEnv) (instances : List Instance) : Option String × List String :=
  let r := (Layer instances).foldl (reconcileStep env) (none, [], [])
  (r.1, r.2.1)

/-- Specification-level description of which components get an apply call:
layer by layer, every component whose dependency set misses the previous
layer's error set is attempted, and the attempted components that fail form
the error set consulted by the next layer (spec section 4.4). -/
def attemptedIds (env : ApplyEnv) : List InstanceLayer → List String → List String
  | [], _ => []
  | l :: rest, prevErr =>
    let att := (l.components.filter (fun i => !shouldSkip prevErr i)).map (fun i => i.id)
    att ++ attemptedIds env rest (att.filter (fun id => (env id).isSome))

end Comp

namespace Version

/-- Errors of `SemVerStrategy.HasNewerRemoteVersion`: an invalid constraint
string (`semver.NewConstraint` failed) or an unparseable current version
(`semver.NewVersion` failed after the loop). -/
inductive StrategyError where
  | constraintError
  | currentVersionError
  deriving DecidableEq, Repr

/-- The loop of `HasNewerRemoteVersion` over the remote version iterator, in
iteration order: versions that fail `semver.NewVersion` or violate the
constraint are skipped; the first acceptable version seeds the latest;
a later one replaces it exactly when `GreaterThan` holds. The external
Masterminds semver library is abstracted by the parameters: `check` is the
parsed constraint's `Check`, `parseVersion` is `semver.NewVersion`, and
`gt` is `Version.GreaterThan`. The accumulator keeps the original remote
string alongside its parse, since the Go code returns `Original()`. -/
def selectLatest {V : Type} (check : V → Bool) (parseVersion : String → Option V)
    (gt : V → V → Bool) : List String → Option (String × V) → Option (String × V)
  | [], acc => acc
  | v :: rest, acc =>
    match parseVersion v with
    | none => selectLatest check parseVersion gt rest acc
    | some rv =>
      if !check rv then selectLatest check parseVersion gt rest acc
      else
        match acc with
        | none => selectLatest check parseVersion gt rest (some (v, rv))
        | some (_, l) =>
          if gt rv l then selectLatest check parseVersion gt rest (some (v, rv))
          else selectLatest check parseVersion gt rest acc

/-- Model of `SemVerStrategy.HasNewerRemoteVersion` (pkg/version/strategy.go):
construct the constraint (`parseConstraint` models `semver.NewConstraint`,
`none` meaning the constraint string is invalid), run the selection loop over
all remote versions, return `("", false)` when nothing acceptable remains,
otherwise parse the current version and report the chosen remote's original
string together with `GreaterThan(latest, current)`. -/
def hasNewerRemoteVersion {V : Type} (parseConstraint : Option (V → Bool))
    (parseVersion : String → Option V) (gt : V → V → Bool)
    (currentVersion : String) (remoteVersions : List String) :
    Except StrategyError (String × Bool) :=
  match parseConstraint with
  | none => .error .constraintError
  | some check =>
    match selectLatest check parseVersion gt remoteVersions none with
    | none => .ok ("", false)
    | some (orig, latest) =>
      match parseVersion currentVersion with
      | none => .error .currentVersionError
      | some current => .ok (orig, gt latest current)

/-- The remote versions that survive the discard steps: parseable and
satisfying the constraint, paired with their parses, in iteration order. -/
def accepted {V : Type} (check : V → Bool) (parseVersion : String → Option V)
    (remoteVersions : List String) : List (String × V) :=
  remoteVersions.filterMap (fun v =>
    match parseVersion v with
    | none => none
    | some rv => if check rv then some (v, rv) else none)

end Version

namespace Sched

/-- Mirror of `version.UpdateInstruction` as consumed by the scheduler. The
struct declaration itself is not under src; its fields are modelled from the
spec (section 3: `{strategy, constraint, integration, schedule, file, line,
target}` with `target.name()`) restricted to the fields `Schedule`, `File`,
`Line` and `Target.Name()` that `schedule.go` reads. -/
structure UpdateInstruction where
  targetName : String
  schedule : String
  file : String
  line : Int
  deriving DecidableEq, Repr

/-- A gocron job as the scheduler observes it: its unique id (gocron UUID,
modelled as a number), its name, its tags, and the cron definition/task
content it was last created or updated with, summarized by the cron
expression (the task closure is rebuilt from the same instruction fields). -/
structure Job where
  id : Nat
  name : String
  tags : List String
  cron : String
  deriving DecidableEq, Repr

/-- The gocron scheduler's synchronized job set, with a fresh-id counter
standing for UUID generation. -/
structure SchedulerState where
  jobs : List Job
  nextId : Nat
  deriving DecidableEq, Repr

/-- Mirror of `keyValueTag`. -/
def keyValueTag (key value : String) : String := key ++ ":" ++ value

/-- Mirror of `jobName`: `<uid>-<target.Name()>`. -/
def jobName (projectUID : String) (i : UpdateInstruction) : String :=
  projectUID ++ "-" ++ i.targetName

def scheduleTag (i : UpdateInstruction) : String := keyValueTag "schedule" i.schedule

def fileTag (i : UpdateInstruction) : String := keyValueTag "file" i.file

/-- `strconv.Itoa(instruction.Line)` inside the line tag. -/
def lineTag (i : UpdateInstruction) : String := keyValueTag "line" (toString i.line)

/-- The identity test both `upsertJob` and `haveJobForInstructions` perform:
job name equals `<uid>-<target>`, and the tag list carries the instruction's
file and line tags (the two loops over `job.Tags()` set `matchedFile` and
`matchedLine`). -/
def matchesInstruction (projectUID : String) (i : UpdateInstruction) (job : Job) : Bool :=
  job.name == jobName projectUID i
    && job.tags.contains (fileTag i) && job.tags.contains (lineTag i)

/-- Mirror of `haveJobForInstructions`: some instruction reaffirms the job. -/
def haveJobForInstructions (job : Job) (projectUID : String)
    (instructions : List UpdateInstruction) : Bool :=
  instructions.any (fun i => matchesInstruction projectUID i job)

/-- The job content `upsertJob` installs for an instruction: name
`<uid>-<target>`, the three identifier tags, and the cron definition and
task built from the instruction. -/
def canonicalJob (projectUID : String) (i : UpdateInstruction) (id : Nat) : Job :=
  { id := id
    name := jobName projectUID i
    tags := [scheduleTag i, fileTag i, lineTag i]
    cron := i.schedule }

/-- Model of `UpdateScheduler.upsertJob`: scan the job set for the first job
whose name and file/line tags match the instruction; update it in place
(gocron `Update` keeps the job id) or add a new job. gocron's own cron
validation is outside the model: the spec takes `schedule` to be a cron
expression. -/
def upsertJob (projectUID : String) (i : UpdateInstruction) (s : SchedulerState) :
    SchedulerState :=
  match s.jobs.find? (matchesInstruction projectUID i) with
  | some job =>
    { s with jobs := s.jobs.map (fun j =>
        if j.id == job.id then canonicalJob projectUID i job.id else j) }
  | none =>
    { jobs := s.jobs ++ [canonicalJob projectUID i s.nextId], nextId := s.nextId + 1 }

/-- The removal loop of `Schedule`: every job whose name has the project
prefix and whose identity no instruction reaffirms is removed. -/
def removeStale (projectUID : String) (instructions : List UpdateInstruction)
    (jobs : List Job) : List Job :=
  jobs.filter (fun job =>
    !(goHasPre job.name (projectUID ++ "-")
      && !haveJobForInstructions job projectUID instructions))

/-- Model of `UpdateScheduler.Schedule` (pkg/version/schedule.go): remove the
stale project jobs, then upsert a job per instruction in order. Errors from
`RemoveJob`/`upsertJob` are only logged by the source and the call returns
the job count with a nil error, so the model returns the state. -/
def schedule (projectUID : String) (instructions : List UpdateInstruction)
    (s : SchedulerState) : SchedulerState :=
  let s1 : SchedulerState := { s with jobs := removeStale projectUID instructions s.jobs }
  instructions.foldl (fun st i => upsertJob projectUID i st) s1

/-- Well-formedness gocron maintains for its job set: job ids (UUIDs) are
pairwise distinct, and the fresh-id counter is ahead of every existing id. -/
def wf (s : SchedulerState) : Prop :=
  (s.jobs.map Job.id).Nodup ∧ ∀ j ∈ s.jobs, j.id < s.nextId

end Sched

namespace Proj

/-- Mirror of `v1beta1.GitOpsProjectSpec`: `suspend` is an optional pointer
field (`*bool`), absent when the user did not set it. -/
structure GitOpsProjectSpec where
  serviceAccountName : String
  url : String
  branch : String
  dir : String
  pullIntervalSeconds : Int
  suspend : Option Bool
  deriving DecidableEq, Repr

/-- Mirror of `project.ReconcileResult` restricted to the fields the suspend
guard determines. -/
structure ReconcileResult where
  suspended : Bool
  commitHash : String
  deriving DecidableEq, Repr

/-- Outcome of a Go call that may return a value, return an error, or crash
with a runtime panic (here: a nil-pointer dereference). -/
inductive GoOutcome (α : Type) where
  | ok (a : α)
  | err
  | panicked
  deriving DecidableEq, Repr

/-- Model of the head of `project.Reconciler.Reconcile`
(pkg/project/reconciler.go): the body begins with `if *gProject.Spec.Suspend`,
an unconditional dereference of the optional pointer, so a project without
an explicit `suspend` value panics before anything else runs. When suspend
is explicitly true the call returns `{Suspended: true}` with a zero commit
hash; when explicitly false the rest of the tick runs, abstracted by the
`rest` outcome. -/
def reconcileProject (spec : GitOpsProjectSpec) (rest : GoOutcome ReconcileResult) :
    GoOutcome ReconcileResult :=
  match spec.suspend with
  | none => .panicked
  | some true => .ok { suspended := true, commitHash := "" }
  | some false => rest

end Proj

/-- A toy version parser over an abstract version space, standing in for
`semver.NewVersion` in concrete witnesses. -/
def sampleParse : String → Option Nat :=
  fun s => if s == "1" then some 1 else if s == "2" then some 2 else none

/-- Strict numeric order as a boolean, standing in for `GreaterThan` in
concrete witnesses. -/
def sampleGtNat : Nat → Nat → Bool := fun a b => decide (b < a)

/-- A helm release inventory item used by concrete witnesses. -/
def sampleHelmItem : Inventory.Item := .helmRelease ⟨"a", "ns", "a_ns_HelmRelease"⟩

/-- A manifest inventory item with a four-segment id (empty core api group). -/
def sampleManifestItem : Inventory.Item :=
  .manifest ⟨⟨"Namespace", "v1"⟩, "b", "nsb", "b_nsb__Namespace"⟩

/-- A decoder standing for `encoding/json` on payloads whose object carries
`kind` and `apiVersion`. -/
def sampleDecode : Inventory.Bytes → Option (Option String × Option String) :=
  fun _ => some (some "Namespace", some "v1")

/-- A well-formed remote artifact with digest `sha256:a`. -/
def sampleImageA : Oci.Image :=
  ⟨Oci.OCIManifestSchema1, Oci.ConfigMediaType, "sha256:a", Oci.ContentLayerMediaType,
    true, true, "A"⟩

/-- A well-formed remote artifact with digest `sha256:b`. -/
def sampleImageB : Oci.Image :=
  ⟨Oci.OCIManifestSchema1, Oci.ConfigMediaType, "sha256:b", Oci.ContentLayerMediaType,
    true, true, "B"⟩

/-- The cache state after loading `sampleImageA` into target `t` once. -/
def sampleStateA : Oci.LoadState :=
  ⟨["sha256:a"], [("t", "A")], ["t-bkp"], [("sha256:a", "t")]⟩

/-!
Theorems. Each claim of the specification is settled by exactly one theorem
below; shared helper lemmas precede them.
-/

/-- C10: a GitOpsProject whose optional `spec.suspend` field is unset makes
`project.Reconciler.Reconcile` dereference the nil pointer and panic instead
of treating the project as not suspended; the call returns normally only
when `suspend` is explicitly set (true short-circuits as suspended, false
runs the rest of the tick). -/
theorem project_reconcile_nil_suspend_panics (spec : Proj.GitOpsProjectSpec)
    (rest : Proj.GoOutcome Proj.ReconcileResult) :
    (spec.suspend = none → Proj.reconcileProject spec rest = .panicked)
    ∧ (∀ r, Proj.reconcileProject spec rest = Proj.GoOutcome.ok r → spec.suspend.isSome)
    ∧ (spec.suspend = some true → Proj.reconcileProject spec rest = .ok ⟨true, ""⟩)
    ∧ (spec.suspend = some false → Proj.reconcileProject spec rest = rest) := by
  refine ⟨fun h => ?_, fun r hr => ?_, fun h => ?_, fun h => ?_⟩
  · simp [Proj.reconcileProject, h]
  · cases h : spec.suspend with
    | none => rw [Proj.reconcileProject, h] at hr; exact absurd hr (by simp)
    | some b => simp
  · simp [Proj.reconcileProject, h]
  · simp [Proj.reconcileProject, h]

/-- Witness for C10 at a concrete project with `suspend` unset. -/
theorem project_reconcile_nil_suspend_panics_witness :
    Proj.reconcileProject ⟨"", "https://example.org/repo", "main", ".", 5, none⟩
        Proj.GoOutcome.err = .panicked :=
  (project_reconcile_nil_suspend_panics ⟨"", "https://example.org/repo", "main", ".", 5, none⟩
    Proj.GoOutcome.err).1 rfl

/-- C6 (divergence witness): deleting the single stored item of a bucket
succeeds without error and removes the file, yet the bucket directory stays
behind although the bucket became empty, because `DeleteItem` probes the
directory for emptiness before removing the file. -/
theorem inventory_delete_leaves_empty_bucket :
    Inventory.deleteItem
        (Inventory.storeItem Inventory.FileSys.empty sampleHelmItem none) sampleHelmItem
      = (⟨["ns"], []⟩, none) := by
  decide

/-- C7 (divergence witness): a file whose basename has no underscore (one
segment) makes `Instance.Load` panic with an index-out-of-range instead of
returning `ErrWrongInventoryKey`, while a two-segment basename does return
`ErrWrongInventoryKey`. -/
theorem inventory_load_short_key_panics :
    Inventory.load sampleDecode ⟨["b"], [("b", "foo", [])]⟩ = .panicked
    ∧ Inventory.load sampleDecode ⟨["b"], [("b", "a_b", [])]⟩ = .err .wrongInventoryKey := by
  constructor <;> decide

/-- C1 (counterexample): a stored payload that does not end in a newline is
truncated by the `StoreItem` copy loop, so `GetItem` does not return bytes
equal to the payload. -/
theorem inventory_roundtrip_counterexample :
    Inventory.getItem
        (Inventory.storeItem Inventory.FileSys.empty sampleHelmItem (some ['a']))
        sampleHelmItem ≠ some ['a'] := by
  decide

/-- C5: a successful `LoadImage` call followed by a second call for the same
unchanged remote image and cache state returns the identical digest and
leaves the whole cache and target state untouched: the second call hits the
completion marker written by the first. -/
theorem oci_load_idempotent (s s1 : Oci.LoadState) (img : Oci.Image) (t d : String)
    (h : Oci.loadImage s img t = (Except.ok d, s1)) :
    Oci.loadImage s1 img t = (Except.ok d, s1) := by
  have h1 : img.manifestMediaType = Oci.OCIManifestSchema1 := by
    by_contra hc
    simp [Oci.loadImage, hc] at h
  have h2 : img.configMediaType = Oci.ConfigMediaType := by
    by_contra hc
    simp [Oci.loadImage, h1, hc] at h
  unfold Oci.loadImage at h ⊢
  rw [if_neg (by simp [h1]), if_neg (by simp [h2])] at h ⊢
  dsimp only at h ⊢
  by_cases hmem : img.digest ∈ s.completion
  · rw [if_pos hmem] at h
    simp only [Prod.mk.injEq, Except.ok.injEq] at h
    obtain ⟨hd, hs⟩ := h
    subst hd
    subst hs
    rw [if_pos hmem]
  · rw [if_neg hmem] at h
    by_cases h3 : img.layerMediaType ≠ Oci.ContentLayerMediaType ∨ img.pullOk = false
    · rw [if_pos h3] at h
      exact absurd h (by simp)
    · rw [if_neg h3] at h
      by_cases h4 : img.unpackOk = false
      · rw [if_pos h4] at h
        exact absurd h (by simp)
      · rw [if_neg h4] at h
        simp only [Prod.mk.injEq, Except.ok.injEq] at h
        obtain ⟨hd, hs⟩ := h
        subst hd
        have hm : img.digest ∈ s1.completion := by
          rw [← hs]
          simp
        rw [if_pos hm, ← hs]

/-- Witness for C5: loading `sampleImageA` from the empty cache succeeds and
yields `sampleStateA`, and the theorem applies to that first call. -/
theorem oci_load_idempotent_witness :
    Oci.loadImage sampleStateA sampleImageA "t" = (Except.ok "sha256:a", sampleStateA) :=
  oci_load_idempotent Oci.LoadState.empty sampleStateA sampleImageA "t" "sha256:a" rfl

/-- C2 (counterexample): the completion marker does not survive a cache-miss
load of a different digest (`prepareDirs` removes the whole completion
directory), so loading digest a, then digest b, then digest a again unpacks
the content layer of digest a twice. -/
theorem oci_at_most_once_counterexample :
    ((Oci.loadMany Oci.LoadState.empty
        [(sampleImageA, "t"), (sampleImageB, "t"), (sampleImageA, "t")]).unpacks.count
      ("sha256:a", "t")) = 2 := by
  decide

/-- C2 (amended): the completion marker gives at-most-once unpacking only
while it persists. A `LoadImage` of a digest whose marker is present returns
that digest and leaves the state (target directory included) untouched
without unpacking, and every successful `LoadImage` leaves the marker of its
digest present — so consecutive loads of the same digest unpack at most
once. A cache-miss load of a different digest removes the whole completion
directory, after which the digest is unpacked again. -/
theorem oci_marker_prevents_unpack :
    (∀ (s : Oci.LoadState) (img : Oci.Image) (t : String),
      img.manifestMediaType = Oci.OCIManifestSchema1 →
      img.configMediaType = Oci.ConfigMediaType →
      img.digest ∈ s.completion →
      Oci.loadImage s img t = (Except.ok img.digest, s))
    ∧ (∀ (s s1 : Oci.LoadState) (img : Oci.Image) (t d : String),
      Oci.loadImage s img t = (Except.ok d, s1) → d ∈ s1.completion) := by
  constructor
  · intro s img t h1 h2 hmem
    unfold Oci.loadImage
    rw [if_neg (by simp [h1]), if_neg (by simp [h2])]
    dsimp only
    rw [if_pos hmem]
  · intro s s1 img t d h
    have h1 : img.manifestMediaType = Oci.OCIManifestSchema1 := by
      by_contra hc
      simp [Oci.loadImage, hc] at h
    have h2 : img.configMediaType = Oci.ConfigMediaType := by
      by_contra hc
      simp [Oci.loadImage, h1, hc] at h
    unfold Oci.loadImage at h
    rw [if_neg (by simp [h1]), if_neg (by simp [h2])] at h
    dsimp only at h
    by_cases hmem : img.digest ∈ s.completion
    · rw [if_pos hmem] at h
      simp only [Prod.mk.injEq, Except.ok.injEq] at h
      obtain ⟨hd, hs⟩ := h
      subst hd
      subst hs
      exact hmem
    · rw [if_neg hmem] at h
      by_cases h3 : img.layerMediaType ≠ Oci.ContentLayerMediaType ∨ img.pullOk = false
      · rw [if_pos h3] at h
        exact absurd h (by simp)
      · rw [if_neg h3] at h
        by_cases h4 : img.unpackOk = false
        · rw [if_pos h4] at h
          exact absurd h (by simp)
        · rw [if_neg h4] at h
          simp only [Prod.mk.injEq, Except.ok.injEq] at h
          obtain ⟨hd, hs⟩ := h
          subst hd
          rw [← hs]
          simp

/-- Associativity of `Option` alternation, used for first-error bookkeeping. -/
theorem option_orElse_assoc {α : Type} (a b c : Option α) :
    ((a <|> b) <|> c) = (a <|> (b <|> c)) := by
  cases a <;> rfl

theorem option_some_orElse {α : Type} (a : α) (b : Option α) :
    ((some a <|> b) : Option α) = some a := rfl

theorem option_none_orElse {α : Type} (b : Option α) :
    ((none <|> b) : Option α) = b := rfl

theorem option_orElse_none {α : Type} (a : Option α) :
    ((a <|> none) : Option α) = a := by
  cases a <;> rfl

/-- Filtering a mapped list is mapping the comp-filtered list. -/
theorem filter_map_comm {α β : Type} (f : α → β) (p : β → Bool) (l : List α) :
    (l.map f).filter p = (l.filter fun a => p (f a)).map f := by
  induction l with
  | nil => rfl
  | cons a l ih =>
    simp only [List.map_cons, List.filter_cons]
    by_cases h : p (f a)
    · simp [h, ih]
    · simp [h, ih]

/-- The first hit of `f` on an appended list. -/
theorem filterMap_append_head {α β : Type} (f : α → Option β) (l1 l2 : List α) :
    ((l1 ++ l2).filterMap f).head? = ((l1.filterMap f).head? <|> (l2.filterMap f).head?) := by
  rw [List.filterMap_append]
  cases h : l1.filterMap f with
  | nil => simp
  | cons x xs => simp

/-- A component with no previous-layer error set is never skipped. -/
theorem shouldSkip_nil (i : Comp.Instance) : Comp.shouldSkip [] i = false := by
  simp [Comp.shouldSkip]

/-- Closed form of the goroutine fold over a layer: the attempted components
are those the skip test lets through; all of them are applied, the failing
ones form the error set, and the first failure's message is the group
error. -/
theorem layerFold_eq (env : Comp.ApplyEnv) (checkSkip : Bool) (prevErr : List String)
    (comps : List Comp.Instance) (errs0 : List String) (fe0 : Option String)
    (log0 : List String) :
    comps.foldl (Comp.layerStep env checkSkip prevErr) (errs0, fe0, log0) =
      (errs0 ++ (((comps.filter fun i => !(checkSkip && Comp.shouldSkip prevErr i)).filter
          fun i => (env i.id).isSome).map fun i => i.id),
       (fe0 <|> (((comps.filter fun i => !(checkSkip && Comp.shouldSkip prevErr i)).map
          fun i => i.id).filterMap env).head?),
       log0 ++ ((comps.filter fun i => !(checkSkip && Comp.shouldSkip prevErr i)).map
          fun i => i.id)) := by
  induction comps generalizing errs0 fe0 log0 with
  | nil => simp [option_orElse_none]
  | cons i rest ih =>
    simp only [List.foldl_cons, List.filter_cons]
    cases hb : (checkSkip && Comp.shouldSkip prevErr i) with
    | true =>
      rw [Comp.layerStep, if_pos hb, ih]
      simp [hb]
    | false =>
      rw [Comp.layerStep, if_neg (by rw [hb]; exact Bool.false_ne_true)]
      have hs' : (!(checkSkip && Comp.shouldSkip prevErr i)) = true := by
        rw [hb]
        rfl
      cases he : env i.id with
      | none =>
        rw [ih]
        simp [hs', he]
      | some msg =>
        rw [ih]
        simp [hs', he, option_orElse_assoc, option_some_orElse]

/-- Closed form of `reconcileLayer`: both branches reduce to filtering the
layer by the skip test. -/
theorem reconcileLayer_eq (env : Comp.ApplyEnv) (layer : Comp.InstanceLayer)
    (prevErr : List String) :
    Comp.reconcileLayer env layer prevErr =
      ((((layer.components.filter fun i => !Comp.shouldSkip prevErr i).filter
          fun i => (env i.id).isSome).map fun i => i.id),
       ((((layer.components.filter fun i => !Comp.shouldSkip prevErr i).map
          fun i => i.id).filterMap env).head?),
       ((layer.components.filter fun i => !Comp.shouldSkip prevErr i).map fun i => i.id)) := by
  unfold Comp.reconcileLayer
  by_cases he : prevErr.isEmpty
  · rw [if_pos he, layerFold_eq]
    have hnil : prevErr = [] := by
      cases prevErr with
      | nil => rfl
      | cons a l => simp [List.isEmpty] at he
    subst hnil
    simp [shouldSkip_nil, option_none_orElse]
  · rw [if_neg he, layerFold_eq]
    simp [option_none_orElse]

/-- C3: a component whose dependency set intersects the previous layer's
error set is skipped by `reconcileLayer`: no apply call is issued for it and
it is not recorded in the current layer's error set. -/
theorem reconciler_skip_erroneous_dependency (env : Comp.ApplyEnv)
    (layer : Comp.InstanceLayer) (prevErr : List String) (inst : Comp.Instance)
    (hmem : inst ∈ layer.components)
    (hnd : (layer.components.map fun i => i.id).Nodup)
    (hskip : Comp.shouldSkip prevErr inst = true) :
    inst.id ∉ (Comp.reconcileLayer env layer prevErr).2.2
    ∧ inst.id ∉ (Comp.reconcileLayer env layer prevErr).1 := by
  rw [reconcileLayer_eq]
  constructor
  · intro hin
    simp only [List.mem_map, List.mem_filter] at hin
    obtain ⟨j, ⟨hj, hjskip⟩, hjid⟩ := hin
    have : j = inst := List.inj_on_of_nodup_map hnd hj hmem hjid
    subst this
    rw [hskip] at hjskip
    simp at hjskip
  · intro hin
    simp only [List.mem_map, List.mem_filter] at hin
    obtain ⟨j, ⟨⟨hj, hjskip⟩, _⟩, hjid⟩ := hin
    have : j = inst := List.inj_on_of_nodup_map hnd hj hmem hjid
    subst this
    rw [hskip] at hjskip
    simp at hjskip

/-- Witness for C3 at a concrete one-component layer whose dependency failed
in the previous layer. -/
theorem reconciler_skip_erroneous_dependency_witness :
    (⟨"b", ["a"]⟩ : Comp.Instance) ∈ ([⟨"b", ["a"]⟩] : List Comp.Instance)
    ∧ Comp.shouldSkip ["a"] ⟨"b", ["a"]⟩ = true
    ∧ "b" ∉ (Comp.reconcileLayer (fun _ => none) ⟨[⟨"b", ["a"]⟩]⟩ ["a"]).2.2 :=
  ⟨by decide, by decide,
    (reconciler_skip_erroneous_dependency (fun _ => none) ⟨[⟨"b", ["a"]⟩]⟩ ["a"]
      ⟨"b", ["a"]⟩ (by decide) (by decide) (by decide)).1⟩

/-- Closed form of the layer loop of `Reconcile`: the error is the first
failure over the attempted components, the log is the attempted ids. -/
theorem reconcileFold_eq (env : Comp.ApplyEnv) (layers : List Comp.InstanceLayer)
    (fe0 : Option String) (log0 prevErr : List String) :
    ∃ errs, layers.foldl (Comp.reconcileStep env) (fe0, log0, prevErr) =
      ((fe0 <|> ((Comp.attemptedIds env layers prevErr).filterMap env).head?),
       log0 ++ Comp.attemptedIds env layers prevErr, errs) := by
  induction layers generalizing fe0 log0 prevErr with
  | nil => exact ⟨prevErr, by simp [Comp.attemptedIds, option_orElse_none]⟩
  | cons l rest ih =>
    simp only [List.foldl_cons, Comp.reconcileStep, reconcileLayer_eq, Comp.attemptedIds]
    obtain ⟨errs, hrest⟩ := ih (fe0 <|>
        ((((l.components.filter fun i => !Comp.shouldSkip prevErr i).map
          fun i => i.id).filterMap env).head?))
      (log0 ++ ((l.components.filter fun i => !Comp.shouldSkip prevErr i).map fun i => i.id))
      ((((l.components.filter fun i => !Comp.shouldSkip prevErr i).filter
          fun i => (env i.id).isSome).map fun i => i.id))
    refine ⟨errs, ?_⟩
    rw [hrest]
    rw [filter_map_comm (fun i : Comp.Instance => i.id) (fun id => (env id).isSome)]
    rw [filterMap_append_head, option_orElse_assoc, List.append_assoc]

/-- C4: `Reconcile` over a sorted stream returns the first non-nil error
among all issued applies (nil when none), and it issues an apply for exactly
the components not skipped for an erroneous dependency, layer by layer — a
failure inside a layer does not prevent the remaining components of that
layer, which appear later in the attempt log, from being attempted. -/
theorem reconciler_first_error_attempts_all (env : Comp.ApplyEnv)
    (instances : List Comp.Instance) :
    (Comp.Reconcile env instances).1
        = ((Comp.Reconcile env instances).2.filterMap env).head?
    ∧ (Comp.Reconcile env instances).2 = Comp.attemptedIds env (Comp.Layer instances) [] := by
  unfold Comp.Reconcile
  obtain ⟨errs, hfold⟩ := reconcileFold_eq env (Comp.Layer instances) none [] []
  rw [hfold]
  simp [option_none_orElse]

/-- A newline-terminated input is copied in full by the store loop. -/
theorem copyLoop_ends_newline (s : Inventory.Bytes) (pending : Inventory.Bytes)
    (h : s.getLast? = some '\n') : Inventory.copyLoop pending s = pending ++ s := by
  induction s generalizing pending with
  | nil => exact absurd h (by simp)
  | cons c cs ih =>
    cases cs with
    | nil =>
      simp only [List.getLast?_singleton, Option.some.injEq] at h
      subst h
      simp [Inventory.copyLoop]
    | cons d ds =>
      rw [List.getLast?_cons_cons] at h
      by_cases hc : c = '\n'
      · subst hc
        rw [Inventory.copyLoop, if_pos rfl, ih _ h]
        simp
      · rw [Inventory.copyLoop, if_neg hc, ih _ h]
        simp

/-- The store loop is the identity on empty or newline-terminated payloads. -/
theorem copyLines_self (p : Inventory.Bytes) (h : p = [] ∨ p.getLast? = some '\n') :
    Inventory.copyLines p = p := by
  cases h with
  | inl h => subst h; rfl
  | inr h => exact copyLoop_ends_newline p [] h

/-- Finding through an in-place map replacement hits the replacement. -/
theorem find?_map_replace {α : Type} (pred : α → Bool) (x : α) (hx : pred x = true)
    (l : List α) (h : l.any pred = true) :
    (l.map fun e => if pred e then x else e).find? pred = some x := by
  induction l with
  | nil => simp at h
  | cons e rest ih =>
    simp only [List.map_cons]
    by_cases he : pred e = true
    · rw [if_pos he]
      simp [List.find?, hx]
    · have hrest : rest.any pred = true := by
        simp only [List.any_cons, Bool.or_eq_true] at h
        rcases h with h1 | h1
        · exact absurd h1 he
        · exact h1
      rw [Bool.not_eq_true] at he
      rw [if_neg (by simp [he])]
      simp only [List.find?, he]
      exact ih hrest

/-- Appending a matching entry behind non-matching ones finds the entry. -/
theorem find?_append_single {α : Type} (pred : α → Bool) (x : α) (hx : pred x = true)
    (l : List α) (h : l.any pred = false) :
    (l ++ [x]).find? pred = some x := by
  induction l with
  | nil => simp [List.find?, hx]
  | cons e rest ih =>
    simp only [List.any_cons, Bool.or_eq_false_iff] at h
    simp only [List.cons_append, List.find?, h.1]
    exact ih h.2

/-- Reading a file just written by `setFile` returns its content. -/
theorem lookupFile_setFile (dir nm : String) (content : Inventory.Bytes)
    (files : List (String × String × Inventory.Bytes)) :
    Inventory.lookupFile dir nm (Inventory.setFile dir nm content files) = some content := by
  unfold Inventory.lookupFile Inventory.setFile
  have hx : (fun (e : String × String × Inventory.Bytes) => e.1 == dir && e.2.1 == nm)
      (dir, nm, content) = true := by simp
  by_cases hany : files.any (fun e => e.1 == dir && e.2.1 == nm) = true
  · rw [if_pos hany, find?_map_replace (fun (e : String × String × Inventory.Bytes) =>
        e.1 == dir && e.2.1 == nm) (dir, nm, content) hx files hany]
    rfl
  · rw [Bool.not_eq_true] at hany
    rw [if_neg (by simp [hany]), find?_append_single (fun (e : String × String × Inventory.Bytes) =>
        e.1 == dir && e.2.1 == nm) (dir, nm, content) hx files hany]
    rfl

/-- Storing items with pairwise distinct ids, none colliding with the
filesystem's existing file names, appends one file per store in order. -/
theorem storeAll_files (stores : List (Inventory.Item × Option Inventory.Bytes))
    (fs0 : Inventory.FileSys)
    (hdisj : ∀ e ∈ fs0.files, e.2.1 ∉ stores.map fun s => s.1.getID)
    (hnd : (stores.map fun s => s.1.getID).Nodup) :
    (Inventory.storeAll fs0 stores).files
      = fs0.files ++ stores.map fun s =>
          (Inventory.itemNs s.1, s.1.getID, Inventory.storedBytes s.2) := by
  induction stores generalizing fs0 with
  | nil => simp [Inventory.storeAll]
  | cons s rest ih =>
    have hany : fs0.files.any (fun e =>
        e.1 == Inventory.itemNs s.1 && e.2.1 == s.1.getID) = false := by
      rw [Bool.eq_false_iff]
      intro hc
      simp only [List.any_eq_true, Bool.and_eq_true, beq_iff_eq] at hc
      obtain ⟨e, hemem, _, hid⟩ := hc
      exact hdisj e hemem (by simp only [List.map_cons, List.mem_cons]; exact Or.inl hid)
    have hset : Inventory.setFile (Inventory.itemNs s.1) s.1.getID
        (Inventory.storedBytes s.2) fs0.files
        = fs0.files ++ [(Inventory.itemNs s.1, s.1.getID, Inventory.storedBytes s.2)] := by
      unfold Inventory.setFile
      rw [if_neg (by simp [hany])]
    simp only [List.map_cons, List.nodup_cons] at hnd
    have hstep : Inventory.storeAll fs0 (s :: rest)
        = Inventory.storeAll (Inventory.storeItem fs0 s.1 s.2) rest := rfl
    rw [hstep, ih]
    · rw [Inventory.storeItem]
      dsimp only
      rw [hset, List.append_assoc]
      rfl
    · intro e hemem
      rw [Inventory.storeItem] at hemem
      dsimp only at hemem
      rw [hset] at hemem
      rcases List.mem_append.mp hemem with hold | hnew
      · intro hin
        exact hdisj e hold (by simp only [List.map_cons, List.mem_cons]; exact Or.inr hin)
      · rcases List.mem_singleton.mp hnew with rfl
        exact hnd.1
    · exact hnd.2

/-- When every file parses, the walk succeeds and yields one keyed item per
file in walk order. -/
theorem loadItems_ok (decode : Inventory.Bytes → Option (Option String × Option String))
    (entries : List (String × String × Inventory.Bytes))
    (h : ∀ e ∈ entries, (Inventory.parseItem decode e.2.1 e.2.2).isOk = true) :
    ∃ items, Inventory.loadItems decode entries = .ok items
      ∧ items.map (fun x => x.1) = entries.map fun e => e.2.1 := by
  induction entries with
  | nil => exact ⟨[], rfl, rfl⟩
  | cons e rest ih =>
    obtain ⟨d, nm, content⟩ := e
    have he := h (d, nm, content) (List.mem_cons_self _ _)
    cases hp : Inventory.parseItem decode nm content with
    | ok item =>
      obtain ⟨items, hrest, hmap⟩ := ih fun x hx => h x (List.mem_cons_of_mem _ hx)
      refine ⟨(nm, item) :: items, ?_, ?_⟩
      · rw [Inventory.loadItems, hp, hrest]
      · simp [hmap]
    | err er =>
      rw [hp] at he
      simp [Inventory.LoadResult.isOk] at he
    | panicked =>
      rw [hp] at he
      simp [Inventory.LoadResult.isOk] at he

/-- C1 (amended): the `StoreItem` copy loop truncates the payload after its
final newline (the pending unterminated chunk is dropped at `io.EOF`), so
`GetItem` after `StoreItem` returns exactly the line-copied bytes — equal to
the payload whenever the payload is empty or ends with a newline — and
`Load` after a set of stores of items with distinct well-formed ids returns
exactly the stored ids. -/
theorem inventory_roundtrip_amended
    (decode : Inventory.Bytes → Option (Option String × Option String))
    (fs : Inventory.FileSys) (item : Inventory.Item) (p : Inventory.Bytes)
    (stores : List (Inventory.Item × Option Inventory.Bytes))
    (hnd : (stores.map fun s => s.1.getID).Nodup)
    (hvalid : ∀ s ∈ stores,
      (Inventory.parseItem decode s.1.getID (Inventory.storedBytes s.2)).isOk = true) :
    Inventory.getItem (Inventory.storeItem fs item (some p)) item
        = some (Inventory.copyLines p)
    ∧ (p = [] ∨ p.getLast? = some '\n' → Inventory.copyLines p = p)
    ∧ ∃ items,
        Inventory.load decode (Inventory.storeAll Inventory.FileSys.empty stores) = .ok items
        ∧ items.map (fun x => x.1) = stores.map fun s => s.1.getID := by
  refine ⟨?_, copyLines_self p, ?_⟩
  · rw [Inventory.storeItem, Inventory.getItem]
    dsimp only
    exact lookupFile_setFile _ _ _ _
  · have hfiles := storeAll_files stores Inventory.FileSys.empty
      (by intro e he; simp [Inventory.FileSys.empty] at he) hnd
    obtain ⟨items, hl, hm⟩ := loadItems_ok decode
      (stores.map fun s => (Inventory.itemNs s.1, s.1.getID, Inventory.storedBytes s.2))
      (by
        intro e he
        simp only [List.mem_map] at he
        obtain ⟨s, hs, rfl⟩ := he
        exact hvalid s hs)
    refine ⟨items, ?_, ?_⟩
    · rw [Inventory.load, hfiles]
      simpa using hl
    · rw [hm, List.map_map]
      rfl

/-- Witness for C1 (amended) on a helm item and a manifest item with a
newline-terminated payload. -/
theorem inventory_roundtrip_amended_witness :
    (([(sampleHelmItem, some ['x', '\n']), (sampleManifestItem, none)].map
        fun (s : Inventory.Item × Option Inventory.Bytes) => s.1.getID).Nodup)
    ∧ (Inventory.getItem (Inventory.storeItem Inventory.FileSys.empty sampleHelmItem
          (some ['y', '\n'])) sampleHelmItem = some (Inventory.copyLines ['y', '\n'])
      ∧ ((['y', '\n'] : Inventory.Bytes) = [] ∨
            (['y', '\n'] : Inventory.Bytes).getLast? = some '\n' →
          Inventory.copyLines ['y', '\n'] = ['y', '\n'])
      ∧ ∃ items,
          Inventory.load sampleDecode (Inventory.storeAll Inventory.FileSys.empty
            [(sampleHelmItem, some ['x', '\n']), (sampleManifestItem, none)]) = .ok items
          ∧ items.map (fun x => x.1)
              = [(sampleHelmItem, some ['x', '\n']), (sampleManifestItem, none)].map
                  fun (s : Inventory.Item × Option Inventory.Bytes) => s.1.getID) :=
  ⟨by decide,
    inventory_roundtrip_amended sampleDecode Inventory.FileSys.empty sampleHelmItem
      ['y', '\n'] [(sampleHelmItem, some ['x', '\n']), (sampleManifestItem, none)]
      (by decide) (by decide)⟩

/-- An unparseable head leaves the accepted remote list unchanged. -/
theorem accepted_cons_none {V : Type} (check : V → Bool) (pv : String → Option V)
    (s : String) (rest : List String) (hpv : pv s = none) :
    Version.accepted check pv (s :: rest) = Version.accepted check pv rest := by
  unfold Version.accepted
  rw [List.filterMap_cons]
  simp [hpv]

/-- A constraint-violating head leaves the accepted remote list unchanged. -/
theorem accepted_cons_skip {V : Type} (check : V → Bool) (pv : String → Option V)
    (s : String) (rest : List String) (rv : V) (hpv : pv s = some rv)
    (hck : check rv = false) :
    Version.accepted check pv (s :: rest) = Version.accepted check pv rest := by
  unfold Version.accepted
  rw [List.filterMap_cons]
  simp [hpv, hck]

/-- An acceptable head is kept at the front of the accepted remote list. -/
theorem accepted_cons_keep {V : Type} (check : V → Bool) (pv : String → Option V)
    (s : String) (rest : List String) (rv : V) (hpv : pv s = some rv)
    (hck : check rv = true) :
    Version.accepted check pv (s :: rest) = (s, rv) :: Version.accepted check pv rest := by
  unfold Version.accepted
  rw [List.filterMap_cons]
  simp [hpv, hck]

/-- A selection loop that ends with no latest version saw no acceptable
remote version and started with none. -/
theorem selectLatest_none {V : Type} (check : V → Bool) (pv : String → Option V)
    (gt : V → V → Bool) (l : List String) :
    ∀ (acc : Option (String × V)),
      Version.selectLatest check pv gt l acc = none →
      Version.accepted check pv l = [] ∧ acc = none := by
  induction l with
  | nil => exact fun acc h => ⟨rfl, h⟩
  | cons s rest ih =>
    intro acc h
    rw [Version.selectLatest] at h
    cases hpv : pv s with
    | none =>
      simp only [hpv] at h
      rw [accepted_cons_none check pv s rest hpv]
      exact ih acc h
    | some rv =>
      simp only [hpv] at h
      by_cases hck : check rv = true
      · simp only [hck, Bool.not_true, Bool.false_eq_true, if_false] at h
        cases acc with
        | none => exact absurd (ih _ h).2 (by simp)
        | some pair =>
          obtain ⟨ao, al⟩ := pair
          by_cases hgt : gt rv al = true
          · simp only [hgt, if_true] at h
            exact absurd (ih _ h).2 (by simp)
          · rw [Bool.not_eq_true] at hgt
            simp only [hgt, Bool.false_eq_true, if_false] at h
            exact absurd (ih _ h).2 (by simp)
      · rw [Bool.not_eq_true] at hck
        simp only [hck, Bool.not_false, if_true] at h
        rw [accepted_cons_skip check pv s rest rv hpv hck]
        exact ih acc h

/-- Invariant of the selection loop: a returned latest version is one of the
accepted remotes (or the seed), no accepted remote is strictly greater than
it, and it dominates and only improves on the seed. `htrans` and `hirr` are
transitivity and irreflexivity of `GreaterThan`, true of semver order. -/
theorem selectLatest_spec {V : Type} (check : V → Bool) (pv : String → Option V)
    (gt : V → V → Bool)
    (htrans : ∀ a b c, gt a b = true → gt b c = true → gt a c = true)
    (hirr : ∀ a, gt a a = false) (l : List String) :
    ∀ (acc : Option (String × V)) (o : String) (v : V),
      Version.selectLatest check pv gt l acc = some (o, v) →
      ((o, v) ∈ Version.accepted check pv l ∨ acc = some (o, v))
      ∧ (∀ x ∈ Version.accepted check pv l, gt x.2 v = false)
      ∧ (∀ ao av, acc = some (ao, av) → gt av v = false ∧ (v = av ∨ gt v av = true)) := by
  induction l with
  | nil =>
    intro acc o v h
    refine ⟨Or.inr h, ?_, ?_⟩
    · intro x hx
      simp [Version.accepted] at hx
    · intro ao av hacc
      rw [hacc] at h
      injection h with h1
      injection h1 with h2 h3
      subst h3
      exact ⟨hirr av, Or.inl rfl⟩
  | cons s rest ih =>
    intro acc o v h
    rw [Version.selectLatest] at h
    cases hpv : pv s with
    | none =>
      simp only [hpv] at h
      rw [accepted_cons_none check pv s rest hpv]
      exact ih acc o v h
    | some rv =>
      simp only [hpv] at h
      by_cases hck : check rv = true
      · simp only [hck, Bool.not_true, Bool.false_eq_true, if_false] at h
        rw [accepted_cons_keep check pv s rest rv hpv hck]
        cases acc with
        | none =>
          obtain ⟨hmem, hdom, hseed⟩ := ih (some (s, rv)) o v h
          obtain ⟨hrvv, hvrv⟩ := hseed s rv rfl
          refine ⟨?_, ?_, ?_⟩
          · rcases hmem with hm | hm
            · exact Or.inl (List.mem_cons_of_mem _ hm)
            · exact Or.inl (by rw [List.mem_cons]; exact Or.inl (Option.some.inj hm).symm)
          · intro x hx
            rcases List.mem_cons.mp hx with hx | hx
            · rw [hx]
              exact hrvv
            · exact hdom x hx
          · intro ao av hacc
            exact absurd hacc (by simp)
        | some pair =>
          obtain ⟨ao, al⟩ := pair
          by_cases hgt : gt rv al = true
          · simp only [hgt, if_true] at h
            obtain ⟨hmem, hdom, hseed⟩ := ih (some (s, rv)) o v h
            obtain ⟨hrvv, hvrv⟩ := hseed s rv rfl
            refine ⟨?_, ?_, ?_⟩
            · rcases hmem with hm | hm
              · exact Or.inl (List.mem_cons_of_mem _ hm)
              · exact Or.inl (by rw [List.mem_cons]; exact Or.inl (Option.some.inj hm).symm)
            · intro x hx
              rcases List.mem_cons.mp hx with hx | hx
              · rw [hx]
                exact hrvv
              · exact hdom x hx
            · intro ao' av' hacc
              injection hacc with h1
              injection h1 with h2 h3
              subst h3
              constructor
              · by_contra hal
                rw [Bool.not_eq_false] at hal
                exact absurd (htrans rv al v hgt hal) (by rw [hrvv]; simp)
              · refine Or.inr ?_
                rcases hvrv with hv | hv
                · rw [hv]
                  exact hgt
                · exact htrans v rv al hv hgt
          · rw [Bool.not_eq_true] at hgt
            simp only [hgt, Bool.false_eq_true, if_false] at h
            obtain ⟨hmem, hdom, hseed⟩ := ih (some (ao, al)) o v h
            obtain ⟨halv, hval⟩ := hseed ao al rfl
            refine ⟨?_, ?_, ?_⟩
            · rcases hmem with hm | hm
              · exact Or.inl (List.mem_cons_of_mem _ hm)
              · exact Or.inr hm
            · intro x hx
              rcases List.mem_cons.mp hx with hx | hx
              · rw [hx]
                by_contra hc
                rw [Bool.not_eq_false] at hc
                rcases hval with hv | hv
                · rw [hv] at hc
                  rw [hc] at hgt
                  cases hgt
                · exact absurd (htrans rv v al hc hv) (by rw [hgt]; simp)
              · exact hdom x hx
            · intro ao' av' hacc
              injection hacc with h1
              injection h1 with h2 h3
              subst h3
              exact ⟨halv, hval⟩
      · rw [Bool.not_eq_true] at hck
        simp only [hck, Bool.not_false, if_true] at h
        rw [accepted_cons_skip check pv s rest rv hpv hck]
        exact ih acc o v h

/-- C8: given a parseable current version and a valid constraint,
`SemVerStrategy.HasNewerRemoteVersion` discards unparseable and
constraint-violating remote versions; when at least one acceptable remote
remains it returns the original string of a greatest acceptable remote and
reports newness exactly when that greatest remote is strictly greater than
the current version. -/
theorem semver_strategy_selects_greatest {V : Type} (check : V → Bool)
    (pv : String → Option V) (gt : V → V → Bool)
    (htrans : ∀ a b c, gt a b = true → gt b c = true → gt a c = true)
    (hirr : ∀ a, gt a a = false)
    (currentVersion : String) (c : V) (hc : pv currentVersion = some c)
    (remoteVersions : List String)
    (hne : Version.accepted check pv remoteVersions ≠ []) :
    ∃ orig latest,
      Version.hasNewerRemoteVersion (some check) pv gt currentVersion remoteVersions
          = .ok (orig, gt latest c)
      ∧ (orig, latest) ∈ Version.accepted check pv remoteVersions
      ∧ ∀ x ∈ Version.accepted check pv remoteVersions, gt x.2 latest = false := by
  unfold Version.hasNewerRemoteVersion
  dsimp only
  cases hsel : Version.selectLatest check pv gt remoteVersions none with
  | none => exact absurd (selectLatest_none check pv gt remoteVersions none hsel).1 hne
  | some ov =>
    obtain ⟨o, v⟩ := ov
    obtain ⟨hmem, hdom, -⟩ :=
      selectLatest_spec check pv gt htrans hirr remoteVersions none o v hsel
    rcases hmem with hm | hm
    · refine ⟨o, v, ?_, hm, hdom⟩
      rw [hc]
    · exact absurd hm (by simp)

/-- Witness for C8 with a toy parser and numeric order: the remote list has
one parseable acceptable version, 2, which is newer than the current 1. -/
theorem semver_strategy_selects_greatest_witness :
    sampleParse "1" = some 1
    ∧ Version.accepted (fun _ => true) sampleParse ["2", "zzz"] ≠ []
    ∧ ∃ orig latest,
        Version.hasNewerRemoteVersion (some fun _ => true) sampleParse sampleGtNat
            "1" ["2", "zzz"] = .ok (orig, sampleGtNat latest 1)
        ∧ (orig, latest) ∈ Version.accepted (fun _ => true) sampleParse ["2", "zzz"]
        ∧ ∀ x ∈ Version.accepted (fun _ => true) sampleParse ["2", "zzz"],
            sampleGtNat x.2 latest = false :=
  ⟨rfl, by decide,
    semver_strategy_selects_greatest (fun _ => true) sampleParse sampleGtNat
      (by
        intro a b c h1 h2
        simp only [sampleGtNat, decide_eq_true_eq] at h1 h2 ⊢
        omega)
      (by
        intro a
        simp [sampleGtNat])
      "1" 1 rfl ["2", "zzz"] (by decide)⟩

/-- A map that fixes every member is the identity. -/
theorem map_eq_self_of_mem {α : Type} (f : α → α) (l : List α)
    (h : ∀ x ∈ l, f x = x) : l.map f = l := by
  induction l with
  | nil => rfl
  | cons x rest ih =>
    rw [List.map_cons, h x (List.mem_cons_self _ _), ih fun y hy => h y (List.mem_cons_of_mem _ hy)]

/-- A hit in the front part of an appended list survives the append. -/
theorem find?_append_left {α : Type} (p : α → Bool) (l1 l2 : List α) (x : α)
    (h : l1.find? p = some x) : (l1 ++ l2).find? p = some x := by
  induction l1 with
  | nil => simp [List.find?] at h
  | cons y rest ih =>
    rw [List.cons_append]
    cases hy : p y with
    | true =>
      simp only [List.find?, hy] at h ⊢
      exact h
    | false =>
      simp only [List.find?, hy] at h ⊢
      exact ih h

/-- Mapping a list does not change the first hit when the map cannot turn a
miss into a hit; the hit itself maps to a hit. -/
theorem find?_map_found {α : Type} (f : α → α) (p : α → Bool) (l : List α) (x : α)
    (hfind : l.find? p = some x)
    (hfx : p (f x) = true)
    (hf : ∀ y ∈ l, p y = false → p (f y) = false) :
    (l.map f).find? p = some (f x) := by
  induction l with
  | nil => simp [List.find?] at hfind
  | cons y rest ih =>
    rw [List.map_cons]
    cases hy : p y with
    | true =>
      simp only [List.find?, hy] at hfind
      injection hfind with hx
      subst hx
      simp only [List.find?, hfx]
    | false =>
      simp only [List.find?, hy] at hfind
      have hfy := hf y (List.mem_cons_self _ _) hy
      simp only [List.find?, hfy]
      exact ih hfind fun z hz => hf z (List.mem_cons_of_mem _ hz)

/-- A fruitless search means no member satisfies the predicate. -/
theorem any_eq_false_of_find?_none {α : Type} (p : α → Bool) (l : List α)
    (h : l.find? p = none) : l.any p = false := by
  rw [Bool.eq_false_iff]
  intro hc
  rw [List.any_eq_true] at hc
  obtain ⟨x, hx, hpx⟩ := hc
  exact absurd (List.find?_isSome.mpr ⟨x, hx, hpx⟩) (by rw [h]; simp)

/-- The canonical job installed for an instruction matches that
instruction's identity test. -/
theorem matches_canonical (uid : String) (i : Sched.UpdateInstruction) (n : Nat) :
    Sched.matchesInstruction uid i (Sched.canonicalJob uid i n) = true := by
  simp [Sched.matchesInstruction, Sched.canonicalJob, List.contains]

/-- A matching job carries the instruction's job name. -/
theorem matches_name (uid : String) (i : Sched.UpdateInstruction) (job : Sched.Job)
    (h : Sched.matchesInstruction uid i job = true) : job.name = Sched.jobName uid i := by
  simp only [Sched.matchesInstruction, Bool.and_eq_true, beq_iff_eq] at h
  exact h.1.1

/-- The canonical job of an instruction with a different job name never
matches. -/
theorem matches_canonical_ne (uid : String) (i i' : Sched.UpdateInstruction) (n : Nat)
    (hne : Sched.jobName uid i ≠ Sched.jobName uid i') :
    Sched.matchesInstruction uid i (Sched.canonicalJob uid i' n) = false := by
  rw [Bool.eq_false_iff]
  intro hc
  exact hne (matches_name uid i _ hc).symm

/-- Job names determine target names within one project prefix. -/
theorem jobName_inj (uid : String) (i i' : Sched.UpdateInstruction)
    (h : Sched.jobName uid i = Sched.jobName uid i') : i.targetName = i'.targetName := by
  unfold Sched.jobName at h
  have hd := congrArg String.data h
  rw [String.data_append, String.data_append, String.data_append, String.data_append] at hd
  rw [List.append_assoc, List.append_assoc] at hd
  have := List.append_cancel_left (List.append_cancel_left hd)
  exact String.ext this

/-- `upsertJob` keeps the job set well-formed: updates preserve ids, a new
job takes the fresh id. -/
theorem wf_upsertJob (uid : String) (i : Sched.UpdateInstruction)
    (st : Sched.SchedulerState) (hwf : Sched.wf st) : Sched.wf (Sched.upsertJob uid i st) := by
  obtain ⟨hnd, hbd⟩ := hwf
  unfold Sched.upsertJob
  cases hfind : st.jobs.find? (Sched.matchesInstruction uid i) with
  | none =>
    have hnotin : st.nextId ∉ st.jobs.map Sched.Job.id := by
      intro hc
      rw [List.mem_map] at hc
      obtain ⟨j, hj, hid⟩ := hc
      have := hbd j hj
      omega
    constructor
    · simp only [List.map_append, List.map_cons, List.map_nil]
      rw [List.nodup_append]
      refine ⟨hnd, by simp, ?_⟩
      intro a ha hb
      rcases List.mem_singleton.mp hb with rfl
      exact hnotin ha
    · intro j hj
      rcases List.mem_append.mp hj with h | h
      · exact Nat.lt_trans (hbd j h) (Nat.lt_succ_self _)
      · rcases List.mem_singleton.mp h with rfl
        exact Nat.lt_succ_self _
  | some job =>
    have hids : ((st.jobs.map fun j =>
        if j.id == job.id then Sched.canonicalJob uid i job.id else j).map Sched.Job.id)
        = st.jobs.map Sched.Job.id := by
      rw [List.map_map]
      apply List.map_congr_left
      intro j hj
      by_cases hid : (j.id == job.id) = true
      · rw [Function.comp_apply, if_pos hid]
        exact (beq_iff_eq.mp hid).symm
      · rw [Function.comp_apply, if_neg hid]
    constructor
    · rw [hids]
      exact hnd
    · intro j hj
      rw [List.mem_map] at hj
      obtain ⟨j0, hj0, rfl⟩ := hj
      by_cases hid : (j0.id == job.id) = true
      · rw [if_pos hid]
        exact hbd job (List.mem_of_find?_eq_some hfind)
      · rw [if_neg hid]
        exact hbd j0 hj0

/-- The removal phase keeps the job set well-formed. -/
theorem wf_removeStale (uid : String) (instrs : List Sched.UpdateInstruction)
    (st : Sched.SchedulerState) (hwf : Sched.wf st) :
    Sched.wf { st with jobs := Sched.removeStale uid instrs st.jobs } := by
  obtain ⟨hnd, hbd⟩ := hwf
  constructor
  · exact hnd.sublist (List.Sublist.map Sched.Job.id (List.filter_sublist _))
  · intro j hj
    exact hbd j (List.mem_of_mem_filter hj)

/-- After `upsertJob` for an instruction, the first job matching that
instruction exists and is exactly the canonical job (name, tags, task). -/
theorem good_after_upsert (uid : String) (i : Sched.UpdateInstruction)
    (st : Sched.SchedulerState) (hnd : (st.jobs.map Sched.Job.id).Nodup) :
    ∃ n, (Sched.upsertJob uid i st).jobs.find? (Sched.matchesInstruction uid i)
      = some (Sched.canonicalJob uid i n) := by
  unfold Sched.upsertJob
  cases hfind : st.jobs.find? (Sched.matchesInstruction uid i) with
  | none =>
    exact ⟨st.nextId, find?_append_single _ _ (matches_canonical uid i st.nextId) _
      (any_eq_false_of_find?_none _ _ hfind)⟩
  | some job =>
    refine ⟨job.id, ?_⟩
    have hjobmem := List.mem_of_find?_eq_some hfind
    have hpx : Sched.matchesInstruction uid i
        ((fun j => if j.id == job.id then Sched.canonicalJob uid i job.id else j) job)
          = true := by
      dsimp only
      rw [if_pos (by simp)]
      exact matches_canonical uid i job.id
    have hres := find?_map_found
      (fun j => if j.id == job.id then Sched.canonicalJob uid i job.id else j)
      (Sched.matchesInstruction uid i) st.jobs job hfind hpx ?_
    · rw [hres]
      dsimp only
      rw [if_pos (by simp)]
    · intro y hy hpy
      dsimp only
      by_cases hid : (y.id == job.id) = true
      · have hyj : y = job := List.inj_on_of_nodup_map hnd hy hjobmem (beq_iff_eq.mp hid)
        subst hyj
        exact absurd (List.find?_some hfind) (by rw [hpy]; simp)
      · rw [if_neg hid]
        exact hpy

/-- An `upsertJob` for an instruction with a different job name preserves
the canonical first match of another instruction. -/
theorem good_preserved_upsert (uid : String) (i i' : Sched.UpdateInstruction)
    (st : Sched.SchedulerState) (hnd : (st.jobs.map Sched.Job.id).Nodup)
    (hne : Sched.jobName uid i ≠ Sched.jobName uid i')
    (hgood : ∃ n, st.jobs.find? (Sched.matchesInstruction uid i)
      = some (Sched.canonicalJob uid i n)) :
    ∃ n, (Sched.upsertJob uid i' st).jobs.find? (Sched.matchesInstruction uid i)
      = some (Sched.canonicalJob uid i n) := by
  obtain ⟨n, hfind⟩ := hgood
  unfold Sched.upsertJob
  cases hfind' : st.jobs.find? (Sched.matchesInstruction uid i') with
  | none =>
    exact ⟨n, find?_append_left _ _ _ _ hfind⟩
  | some job' =>
    refine ⟨n, ?_⟩
    have hxmem := List.mem_of_find?_eq_some hfind
    have hjmem := List.mem_of_find?_eq_some hfind'
    have hxid : ((Sched.canonicalJob uid i n).id == job'.id) = false := by
      rw [beq_eq_false_iff_ne]
      intro hc
      have hxj : Sched.canonicalJob uid i n = job' :=
        List.inj_on_of_nodup_map hnd hxmem hjmem hc
      have hm := List.find?_some hfind'
      rw [← hxj] at hm
      exact absurd hm (by rw [matches_canonical_ne uid i' i n (Ne.symm hne)]; simp)
    have hfx : Sched.matchesInstruction uid i
        ((fun j => if j.id == job'.id then Sched.canonicalJob uid i' job'.id else j)
          (Sched.canonicalJob uid i n)) = true := by
      dsimp only
      rw [if_neg (by simp [hxid])]
      exact matches_canonical uid i n
    have hres := find?_map_found
      (fun j => if j.id == job'.id then Sched.canonicalJob uid i' job'.id else j)
      (Sched.matchesInstruction uid i) st.jobs _ hfind hfx ?_
    · rw [hres]
      dsimp only
      rw [if_neg (by simp [hxid])]
    · intro y hy hpy
      dsimp only
      by_cases hid : (y.id == job'.id) = true
      · rw [if_pos hid]
        exact matches_canonical_ne uid i i' job'.id hne
      · rw [if_neg hid]
        exact hpy

/-- The upsert phase keeps the job set well-formed. -/
theorem wf_foldl_upsert (uid : String) (li : List Sched.UpdateInstruction)
    (st : Sched.SchedulerState) (hwf : Sched.wf st) :
    Sched.wf (li.foldl (fun st i => Sched.upsertJob uid i st) st) := by
  induction li generalizing st with
  | nil => exact hwf
  | cons i rest ih => exact ih _ (wf_upsertJob uid i st hwf)

/-- Folding upserts of instructions with other job names preserves an
instruction's canonical first match. -/
theorem good_foldl_preserved (uid : String) (i : Sched.UpdateInstruction)
    (li : List Sched.UpdateInstruction) (st : Sched.SchedulerState)
    (hwf : Sched.wf st)
    (hne : ∀ i' ∈ li, Sched.jobName uid i ≠ Sched.jobName uid i')
    (hgood : ∃ n, st.jobs.find? (Sched.matchesInstruction uid i)
      = some (Sched.canonicalJob uid i n)) :
    ∃ n, ((li.foldl (fun st i => Sched.upsertJob uid i st) st).jobs).find?
      (Sched.matchesInstruction uid i) = some (Sched.canonicalJob uid i n) := by
  induction li generalizing st with
  | nil => exact hgood
  | cons i' rest ih =>
    exact ih _ (wf_upsertJob uid i' st hwf)
      (fun x hx => hne x (List.mem_cons_of_mem _ hx))
      (good_preserved_upsert uid i i' st hwf.1 (hne i' (List.mem_cons_self _ _)) hgood)

/-- After the upsert phase over instructions with pairwise distinct target
names, every instruction has its canonical job as the first match. -/
theorem good_foldl_all (uid : String) (li : List Sched.UpdateInstruction)
    (st : Sched.SchedulerState) (hwf : Sched.wf st)
    (hnd : (li.map Sched.UpdateInstruction.targetName).Nodup) :
    ∀ i ∈ li, ∃ n, ((li.foldl (fun st i => Sched.upsertJob uid i st) st).jobs).find?
      (Sched.matchesInstruction uid i) = some (Sched.canonicalJob uid i n) := by
  induction li generalizing st with
  | nil =>
    intro i hi
    simp at hi
  | cons i0 rest ih =>
    intro i hi
    rw [List.foldl_cons]
    simp only [List.map_cons, List.nodup_cons] at hnd
    rcases List.mem_cons.mp hi with rfl | hi'
    · apply good_foldl_preserved uid i rest _ (wf_upsertJob uid i st hwf)
      · intro i' hmem hc
        exact hnd.1 (by rw [jobName_inj uid i i' hc]; exact List.mem_map_of_mem _ hmem)
      · exact good_after_upsert uid i st hwf.1
    · exact ih _ (wf_upsertJob uid i0 st hwf) hnd.2 i hi'

/-- Every job surviving the removal phase whose name has the project prefix
is reaffirmed by some instruction. -/
theorem reaff_removeStale (uid : String) (instrs : List Sched.UpdateInstruction)
    (jobs : List Sched.Job) :
    ∀ job ∈ Sched.removeStale uid instrs jobs,
      goHasPre job.name (uid ++ "-") = true →
      Sched.haveJobForInstructions job uid instrs = true := by
  intro job hmem hpre
  obtain ⟨-, hcond⟩ := List.mem_filter.mp hmem
  simp only [hpre, Bool.true_and, Bool.not_not] at hcond
  exact hcond

/-- An upsert of one of the instructions keeps every prefixed job
reaffirmed. -/
theorem reaff_upsert (uid : String) (instrs : List Sched.UpdateInstruction)
    (i : Sched.UpdateInstruction) (hi : i ∈ instrs) (st : Sched.SchedulerState)
    (hR : ∀ job ∈ st.jobs, goHasPre job.name (uid ++ "-") = true →
      Sched.haveJobForInstructions job uid instrs = true) :
    ∀ job ∈ (Sched.upsertJob uid i st).jobs,
      goHasPre job.name (uid ++ "-") = true →
      Sched.haveJobForInstructions job uid instrs = true := by
  have hcan : ∀ n, Sched.haveJobForInstructions (Sched.canonicalJob uid i n) uid instrs
      = true := fun n => List.any_eq_true.mpr ⟨i, hi, matches_canonical uid i n⟩
  unfold Sched.upsertJob
  cases hfind : st.jobs.find? (Sched.matchesInstruction uid i) with
  | none =>
    intro job hmem hpre
    rcases List.mem_append.mp hmem with h | h
    · exact hR job h hpre
    · rcases List.mem_singleton.mp h with rfl
      exact hcan _
  | some job' =>
    intro job hmem hpre
    rw [List.mem_map] at hmem
    obtain ⟨j0, hj0, rfl⟩ := hmem
    by_cases hid : (j0.id == job'.id) = true
    · rw [if_pos hid]
      exact hcan _
    · rw [if_neg hid]
      rw [if_neg hid] at hpre
      exact hR j0 hj0 hpre

/-- The upsert phase keeps every prefixed job reaffirmed. -/
theorem reaff_foldl (uid : String) (instrs : List Sched.UpdateInstruction)
    (li : List Sched.UpdateInstruction) (hsub : ∀ i ∈ li, i ∈ instrs)
    (st : Sched.SchedulerState)
    (hR : ∀ job ∈ st.jobs, goHasPre job.name (uid ++ "-") = true →
      Sched.haveJobForInstructions job uid instrs = true) :
    ∀ job ∈ (li.foldl (fun st i => Sched.upsertJob uid i st) st).jobs,
      goHasPre job.name (uid ++ "-") = true →
      Sched.haveJobForInstructions job uid instrs = true := by
  induction li generalizing st with
  | nil => exact hR
  | cons i rest ih =>
    exact ih (fun x hx => hsub x (List.mem_cons_of_mem _ hx)) _
      (reaff_upsert uid instrs i (hsub i (List.mem_cons_self _ _)) st hR)

/-- Upserting an instruction whose canonical job is already the first match
changes nothing. -/
theorem upsertJob_id (uid : String) (i : Sched.UpdateInstruction)
    (st : Sched.SchedulerState) (hnd : (st.jobs.map Sched.Job.id).Nodup)
    (hgood : ∃ n, st.jobs.find? (Sched.matchesInstruction uid i)
      = some (Sched.canonicalJob uid i n)) :
    Sched.upsertJob uid i st = st := by
  obtain ⟨n, hfind⟩ := hgood
  unfold Sched.upsertJob
  rw [hfind]
  dsimp only
  have hcanmem := List.mem_of_find?_eq_some hfind
  have hmap : (st.jobs.map fun j =>
      if j.id == (Sched.canonicalJob uid i n).id
      then Sched.canonicalJob uid i (Sched.canonicalJob uid i n).id else j) = st.jobs := by
    apply map_eq_self_of_mem
    intro j hj
    by_cases hid : (j.id == (Sched.canonicalJob uid i n).id) = true
    · rw [if_pos hid]
      have hj' : j = Sched.canonicalJob uid i n :=
        List.inj_on_of_nodup_map hnd hj hcanmem (beq_iff_eq.mp hid)
      rw [hj']
      rfl
    · rw [if_neg hid]
  rw [hmap]

/-- A fold of upserts that are each the identity on a state fixes it. -/
theorem foldl_upsert_id (uid : String) (li : List Sched.UpdateInstruction)
    (st : Sched.SchedulerState)
    (hid : ∀ i ∈ li, Sched.upsertJob uid i st = st) :
    li.foldl (fun st i => Sched.upsertJob uid i st) st = st := by
  induction li with
  | nil => rfl
  | cons i rest ih =>
    rw [List.foldl_cons, hid i (List.mem_cons_self _ _)]
    exact ih fun x hx => hid x (List.mem_cons_of_mem _ hx)

/-- C9: calling `Schedule` twice in a row with the same project UID and the
same instruction list (with the spec-guaranteed unique target names, over a
gocron job set with unique ids) leaves the scheduler state identical: the
second removal phase removes nothing because every prefixed job's identity
is reaffirmed, and every upsert updates its existing canonical job in place
without adding a new one. -/
theorem schedule_idempotent (uid : String) (instrs : List Sched.UpdateInstruction)
    (s : Sched.SchedulerState)
    (hwf : Sched.wf s)
    (htargets : (instrs.map Sched.UpdateInstruction.targetName).Nodup) :
    Sched.schedule uid instrs (Sched.schedule uid instrs s) = Sched.schedule uid instrs s := by
  have hwfR : Sched.wf { s with jobs := Sched.removeStale uid instrs s.jobs } :=
    wf_removeStale uid instrs s hwf
  have hwf1 : Sched.wf (Sched.schedule uid instrs s) :=
    wf_foldl_upsert uid instrs _ hwfR
  have hgood1 : ∀ i ∈ instrs,
      ∃ n, (Sched.schedule uid instrs s).jobs.find? (Sched.matchesInstruction uid i)
        = some (Sched.canonicalJob uid i n) :=
    good_foldl_all uid instrs _ hwfR htargets
  have hR1 : ∀ job ∈ (Sched.schedule uid instrs s).jobs,
      goHasPre job.name (uid ++ "-") = true →
      Sched.haveJobForInstructions job uid instrs = true := by
    apply reaff_foldl uid instrs instrs (fun i hi => hi)
    intro job hmem hpre
    exact reaff_removeStale uid instrs s.jobs job hmem hpre
  have hremove : Sched.removeStale uid instrs (Sched.schedule uid instrs s).jobs
      = (Sched.schedule uid instrs s).jobs := by
    apply List.filter_eq_self.mpr
    intro job hmem
    cases hpre : goHasPre job.name (uid ++ "-") with
    | false => simp [hpre]
    | true => simp [hpre, hR1 job hmem hpre]
  show (instrs.foldl (fun st i => Sched.upsertJob uid i st)
    { Sched.schedule uid instrs s with
        jobs := Sched.removeStale uid instrs (Sched.schedule uid instrs s).jobs })
      = Sched.schedule uid instrs s
  rw [hremove]
  apply foldl_upsert_id
  intro i hi
  exact upsertJob_id uid i _ hwf1.1 (hgood1 i hi)

/-- Witness for C9: a scheduler holding one unrelated job, scheduled twice
for one instruction. -/
theorem schedule_idempotent_witness :
    Sched.wf ⟨[⟨0, "other", [], ""⟩], 1⟩
    ∧ (([⟨"t", "* * * * *", "f.cue", 3⟩] : List Sched.UpdateInstruction).map
        Sched.UpdateInstruction.targetName).Nodup
    ∧ Sched.schedule "u" [⟨"t", "* * * * *", "f.cue", 3⟩]
        (Sched.schedule "u" [⟨"t", "* * * * *", "f.cue", 3⟩] ⟨[⟨0, "other", [], ""⟩], 1⟩)
      = Sched.schedule "u" [⟨"t", "* * * * *", "f.cue", 3⟩] ⟨[⟨0, "other", [], ""⟩], 1⟩ :=
  ⟨⟨by decide, by decide⟩, by decide,
    schedule_idempotent "u" [⟨"t", "* * * * *", "f.cue", 3⟩] ⟨[⟨0, "other", [], ""⟩], 1⟩
      ⟨by decide, by decide⟩ (by decide)⟩

/-- Witness for C2 (amended) at concrete inputs: the marker for `sha256:a`
present in `sampleStateA` short-circuits a reload, and the first load put it
there. -/
theorem oci_marker_prevents_unpack_witness :
    Oci.loadImage sampleStateA sampleImageA "t" = (Except.ok "sha256:a", sampleStateA)
    ∧ "sha256:a" ∈ sampleStateA.completion :=
  ⟨oci_marker_prevents_unpack.1 sampleStateA sampleImageA "t" rfl rfl (by decide),
   oci_marker_prevents_unpack.2 Oci.LoadState.empty sampleStateA sampleImageA "t" "sha256:a" rfl⟩
